import Mathlib

/-!
# Verification of the tix worktree-lifecycle engine

Shallow embedding of the core of the `tix` CLI (Rust sources under
`src/src/core/`), together with proofs about the embedded operations:

* the branch namer (`src/core/commands/common.rs`): `build_branch_name`
  and `sanitize_description`;
* the worktree-name derivation (`src/core/git.rs` line 73 and
  `src/core/ticket.rs` `worktree_name_for_branch`);
* the git worktree engine (`src/core/git.rs`): `create_worktree`,
  `remove_worktree`, `fetch_and_fast_forward`, modelled as transitions on
  an explicit backend-repository state; backend capabilities the Rust code
  consumes from git2 (revparse, merge analysis, fetch) appear as explicit
  inputs of the transition functions;
* the ticket metadata store (`src/core/ticket.rs`): `TicketMetadata` and
  its operations, with `HashMap` modelled by an association list whose
  insert / entry-or-insert / remove operations mirror `HashMap` semantics;
* the per-repository processing loop of `setup`
  (`src/core/commands/setup.rs`) and the cleanliness gate of `remove`
  (`src/core/commands/remove.rs`).

Strings from the Rust side are modelled as `String` where only whole-value
equality matters (aliases, branch values inside metadata) and as
`List Char` where character-level processing happens (the branch namer).
-/

namespace Tix

/-! ## Association lists, modelling `std::collections::HashMap` -/

instance [DecidableEq ε] [DecidableEq α] : DecidableEq (Except ε α) := fun x y =>
  match x, y with
  | .error a, .error b =>
    if h : a = b then isTrue (congrArg Except.error h)
    else isFalse (fun hh => h (by cases hh; rfl))
  | .error _, .ok _ => isFalse (fun hh => Except.noConfusion hh)
  | .ok _, .error _ => isFalse (fun hh => Except.noConfusion hh)
  | .ok a, .ok b =>
    if h : a = b then isTrue (congrArg Except.ok h)
    else isFalse (fun hh => h (by cases hh; rfl))

/-- Lookup in an association list (`HashMap::get`). -/
def lookupA [DecidableEq α] : List (α × β) → α → Option β
  | [], _ => none
  | (k, v) :: rest, a => if k = a then some v else lookupA rest a

/-- Insert-or-replace (`HashMap::insert`). -/
def insertA [DecidableEq α] : List (α × β) → α → β → List (α × β)
  | [], k, v => [(k, v)]
  | (k0, v0) :: rest, k, v =>
    if k0 = k then (k, v) :: rest else (k0, v0) :: insertA rest k v

/-- Insert only when the key is absent (`HashMap::entry(k).or_insert(v)`). -/
def orInsertA [DecidableEq α] (m : List (α × β)) (k : α) (v : β) : List (α × β) :=
  match lookupA m k with
  | some _ => m
  | none => m ++ [(k, v)]

/-- Remove a key (`HashMap::remove`). -/
def eraseA [DecidableEq α] (m : List (α × β)) (k : α) : List (α × β) :=
  m.filter (fun p => p.1 ≠ k)

/-! ## Characters

The branch namer processes Rust `char`s; we model them as Lean `Char`
(both are Unicode scalar values). -/

/-- Model of Rust `char::to_ascii_lowercase`: map `A`..`Z` to `a`..`z`,
leave every other scalar value unchanged. -/
def toAsciiLower (c : Char) : Char :=
  if 65 ≤ c.toNat ∧ c.toNat ≤ 90 then Char.ofNat (c.toNat + 32) else c

/-- ASCII uppercase letters `A`..`Z`. -/
def isAsciiUpper (c : Char) : Bool :=
  decide (65 ≤ c.toNat) && decide (c.toNat ≤ 90)

/-- Model of the stdlib predicate `char::is_alphanumeric` used by
`sanitize_description` (src/core/commands/common.rs line 27) on the ASCII
range, where it holds exactly of `0`..`9`, `A`..`Z` and `a`..`z`.  The
full predicate is Unicode-table driven and external to this repository;
the theorems below about the sanitizer are proved for an arbitrary
classification predicate that rejects the hyphen, so they hold for the
full stdlib predicate as well, and this ASCII instance is used to run the
definitions on concrete inputs. -/
def char_is_alphanumeric (c : Char) : Bool :=
  (decide (48 ≤ c.toNat) && decide (c.toNat ≤ 57)) ||
  (decide (65 ≤ c.toNat) && decide (c.toNat ≤ 90)) ||
  (decide (97 ≤ c.toNat) && decide (c.toNat ≤ 122))

/-! ## Branch Namer (src/core/commands/common.rs)

`sanitize_description` is an imperative loop over the input characters
with a `last_was_hyphen` flag (initially `true`, so leading separators are
dropped), followed by popping one trailing hyphen.  `sanitizeLoop` is that
loop with the flag made explicit; `isAlnum` stands for the stdlib
`char::is_alphanumeric` predicate. -/

/-- The character loop of `sanitize_description`
(src/core/commands/common.rs lines 23-35).  The second argument is the
`last_was_hyphen` flag. -/
def sanitizeLoop (isAlnum : Char → Bool) : List Char → Bool → List Char
  | [], _ => []
  | c :: cs, lastHyph =>
    if isAlnum c then toAsciiLower c :: sanitizeLoop isAlnum cs false
    else if lastHyph then sanitizeLoop isAlnum cs true
    else '-' :: sanitizeLoop isAlnum cs true

/-- The `last_was_hyphen` flag after the loop has consumed the list,
starting from the given flag value. -/
def sanitizeFlag (isAlnum : Char → Bool) : List Char → Bool → Bool
  | [], b => b
  | c :: cs, _ =>
    if isAlnum c then sanitizeFlag isAlnum cs false
    else sanitizeFlag isAlnum cs true

/-- The final trim of `sanitize_description`
(src/core/commands/common.rs lines 38-40): pop one trailing hyphen. -/
def trimTrailingHyphen (l : List Char) : List Char :=
  if l.getLast? = some '-' then l.dropLast else l

/-- Model of `sanitize_description` (src/core/commands/common.rs lines
22-43), parameterized by the `char::is_alphanumeric` predicate. -/
def sanitize_description (isAlnum : Char → Bool) (input : List Char) : List Char :=
  trimTrailingHyphen (sanitizeLoop isAlnum input true)

/-- Model of `build_branch_name` (src/core/commands/common.rs lines 9-19).
The Rust function reads the prefix from `config.branch_prefix`; here it is
passed directly. -/
def build_branch_name (isAlnum : Char → Bool) (branchPfx ticketId : List Char)
    (description : Option (List Char)) : List Char :=
  let branchName := branchPfx ++ '/' :: ticketId
  match description with
  | none => branchName
  | some desc =>
    let sanitized := sanitize_description isAlnum desc
    if sanitized.isEmpty then branchName else branchName ++ '-' :: sanitized

/-! ### Shape predicates on sanitizer output -/

/-- The first character, if any, is not a hyphen. -/
def headNotHyphen : List Char → Bool
  | [] => true
  | c :: _ => !(decide (c = '-'))

/-- The last character, if any, is not a hyphen. -/
def noTrailingHyphen (l : List Char) : Bool :=
  match l.getLast? with
  | some c => !(decide (c = '-'))
  | none => true

/-- No two consecutive characters are both hyphens. -/
def noDoubleHyphen : List Char → Bool
  | [] => true
  | [_] => true
  | a :: b :: rest => !(decide (a = '-') && decide (b = '-')) && noDoubleHyphen (b :: rest)

/-- No character is an ASCII uppercase letter. -/
def noAsciiUpper (l : List Char) : Bool :=
  l.all (fun c => !(isAsciiUpper c))

/-! ## Worktree-name derivation -/

/-- Model of `worktree_name_for_branch` (src/core/ticket.rs lines
163-165): `branch.replace('/', "_")`. -/
def worktree_name_for_branch (branch : List Char) : List Char :=
  branch.map (fun c => if c = '/' then '_' else c)

/-- The inline worktree-name derivation inside `create_worktree`
(src/core/git.rs line 73): `branch_name.replace('/', "_")`. -/
def worktreeNameInCreate (branchName : List Char) : List Char :=
  branchName.map (fun c => if c = '/' then '_' else c)

/-! ## Git worktree engine (src/core/git.rs)

The engine wraps git2 backend primitives.  The backend's per-repository
state that the Rust functions read and write is made explicit as
`GitRepo`; backend capabilities whose outcome is computed outside this
repository (a network fetch, merge analysis of the commit graph) appear
as explicit inputs.  Names on the git side are `List Char` to match the
character-level branch namer. -/

/-- Errors surfaced by the engine, abstracting the `anyhow`/git2 error
chain by its kind. -/
inductive GitError where
  | notFound
  | alreadyExists
  | remoteMissing
  | fetchFailed
  | branchMissing
  | upstreamNoTarget
deriving DecidableEq

/-- Backend-owned per-repository state consumed and mutated by the
engine.  `branches` maps local branch shorthands to tip commit ids,
`worktrees` is the backend's flat worktree-record namespace (name to disk
path), `diskPaths` the directories existing on disk, `revTargets` the
backend's `revparse_single` results, `refTargets` the targets of
(remote-tracking) references, and `workdirAt` the commit the checked-out
working tree reflects. -/
structure GitRepo where
  branches : List (List Char × Nat)
  worktrees : List (List Char × List Char)
  diskPaths : List (List Char)
  headBranch : Option (List Char)
  headCommit : Option Nat
  headRefName : Option (List Char)
  originDefault : Option (List Char)
  revTargets : List (List Char × Nat)
  remotes : List (List Char)
  branchUpstreams : List (List Char × List Char)
  refTargets : List (List Char × Nat)
  workdirAt : Option Nat
deriving DecidableEq

/-- Model of `resolve_default_branch` (src/core/git.rs lines 381-402):
prefer the remote origin's default branch, else the resolved name of
HEAD, else none. -/
def resolve_default_branch (repo : GitRepo) : Option (List Char) :=
  match repo.originDefault with
  | some name => some name
  | none => repo.headRefName

/-- Model of `get_base_commit` (src/core/git.rs lines 85-104): revparse an
explicit base, else peel HEAD to a commit. -/
def get_base_commit (repo : GitRepo) (base : Option (List Char)) : Except GitError Nat :=
  match base with
  | some rev =>
    match lookupA repo.revTargets rev with
    | some c => .ok c
    | none => .error .notFound
  | none =>
    match repo.headCommit with
    | some c => .ok c
    | none => .error .notFound

/-- Step 1 of `create_worktree` (src/core/git.rs lines 41-64): reuse the
branch when it exists, else resolve a base commit (explicit `baseRef`,
else the default branch, else HEAD) and create the branch there. -/
def resolveBranchState (repo : GitRepo) (branchName : List Char)
    (baseRef : Option (List Char)) : Except GitError GitRepo :=
  match lookupA repo.branches branchName with
  | some _ => .ok repo
  | none =>
    let dflt := resolve_default_branch repo
    let base := match baseRef with
      | some b => some b
      | none => dflt
    match get_base_commit repo base with
    | .error e => .error e
    | .ok commit => .ok { repo with branches := insertA repo.branches branchName commit }

/-- Model of `create_worktree` (src/core/git.rs lines 32-83): step 1
resolves or creates the branch, step 2 registers a worktree record under
the slash-to-underscore name bound to `targetPath`; the backend fails with
AlreadyExists when that name is already bound or the target path already
exists on disk. -/
def create_worktree (repo : GitRepo) (targetPath branchName : List Char)
    (baseRef : Option (List Char)) : Except GitError GitRepo :=
  match resolveBranchState repo branchName baseRef with
  | .error e => .error e
  | .ok st =>
    let name := worktreeNameInCreate branchName
    if (lookupA st.worktrees name).isSome || decide (targetPath ∈ st.diskPaths) then
      .error .alreadyExists
    else
      .ok { st with worktrees := insertA st.worktrees name targetPath,
                    diskPaths := targetPath :: st.diskPaths }

/-- Model of `remove_worktree` (src/core/git.rs lines 107-123): when the
backend knows no worktree under `name`, return success without touching
anything; otherwise prune exactly that backend record.  The working
directory (`diskPaths`) is never touched. -/
def remove_worktree (st : GitRepo) (name : List Char) : Except GitError GitRepo :=
  match lookupA st.worktrees name with
  | none => .ok st
  | some _ => .ok { st with worktrees := eraseA st.worktrees name }

/-- The outcome of the backend's `merge_analysis` capability
(src/core/git.rs line 353), an input computed by the backend from the
commit graph. -/
structure MergeAnalysis where
  isUpToDate : Bool
  isFastForward : Bool
deriving DecidableEq

/-- Model of `fetch_and_fast_forward` (src/core/git.rs lines 308-378).
`fetchRes` is the outcome of the network fetch (line 324), `analysis`
the backend's merge analysis.  After a successful fetch: a detached or
unborn HEAD is a silent no-op; a branch HEAD without a configured
upstream is a silent no-op; an up-to-date analysis is a no-op; a
fast-forward analysis advances the branch reference to the upstream
target and force-checks-out the working tree; anything else (diverged
histories) leaves the repository untouched. -/
def fetch_and_fast_forward (st : GitRepo) (remoteName : List Char)
    (fetchRes : Except GitError Unit) (analysis : MergeAnalysis) :
    Except GitError GitRepo :=
  if remoteName ∈ st.remotes then
    match fetchRes with
    | .error _ => .error .fetchFailed
    | .ok _ =>
      match st.headBranch with
      | none => .ok st
      | some b =>
        match lookupA st.branches b with
        | none => .error .branchMissing
        | some _ =>
          match lookupA st.branchUpstreams b with
          | none => .ok st
          | some u =>
            match lookupA st.refTargets u with
            | none => .error .upstreamNoTarget
            | some upstreamOid =>
              if analysis.isUpToDate then .ok st
              else if analysis.isFastForward then
                .ok { st with branches := insertA st.branches b upstreamOid,
                              workdirAt := some upstreamOid }
              else .ok st
  else .error .remoteMissing

/-! ## Ticket metadata store (src/core/ticket.rs)

`HashMap<String, String>` is modelled by the association list above; the
persisted record is the value each operation returns.  Every operation is
load-mutate-persist, so each is modelled as a function from the stored
record (`Option TicketMetadata`, `none` when no stamp exists) to the
record it persists. -/

/-- The persisted ticket record (src/core/ticket.rs lines 12-31).  Its
fields are exactly those of the Rust struct: there is no per-alias
worktree-name map in this schema. -/
structure TicketMetadata where
  id : String
  description : Option String
  created_at : String
  branch : String
  repos : List String
  repo_branches : List (String × String)
deriving DecidableEq

/-- Errors of the metadata store. -/
inductive TicketError where
  | notFound
deriving DecidableEq

/-- Model of `Ticket::create` (src/core/ticket.rs lines 41-74): build the
alias-to-branch map from the given pairs, take `repos` as that map's key
set, and persist the fresh record.  The timestamp is an input. -/
def Ticket.create (id : String) (description : Option String) (default_branch : String)
    (repo_branches : List (String × String)) (created_at : String) : TicketMetadata :=
  let repoBranchMap := repo_branches.foldl (fun m p => insertA m p.1 p.2) []
  { id := id, description := description, created_at := created_at,
    branch := default_branch, repos := repoBranchMap.map Prod.fst,
    repo_branches := repoBranchMap }

/-- The compatibility self-heal inside `Ticket::load` (src/core/ticket.rs
lines 87-95): when `repo_branches` is empty but `repos` is not, seed every
alias with the ticket-level branch. -/
def healTicket (m : TicketMetadata) : TicketMetadata :=
  if m.repo_branches.isEmpty && !m.repos.isEmpty then
    { m with repo_branches :=
        m.repos.foldl (fun br a => insertA br a m.branch) m.repo_branches }
  else m

/-- Model of `Ticket::load` (src/core/ticket.rs lines 77-101): fail when
no stamp exists, otherwise return the stored record after self-healing. -/
def Ticket.load (stored : Option TicketMetadata) : Except TicketError TicketMetadata :=
  match stored with
  | none => .error .notFound
  | some m => .ok (healTicket m)

/-- One iteration of the loop in `Ticket::add_repos_with_branch`
(src/core/ticket.rs lines 106-115): push the alias into `repos` when
absent and `entry(r).or_insert(branch)` into `repo_branches`. -/
def addRepoStep (branch : String) (t : TicketMetadata) (r : String) : TicketMetadata :=
  let t2 := if t.repos.contains r then t else { t with repos := t.repos ++ [r] }
  { t2 with repo_branches := orInsertA t2.repo_branches r branch }

/-- Model of `Ticket::add_repos_with_branch` (src/core/ticket.rs lines
104-117): load (healing), run the loop, persist the result. -/
def Ticket.add_repos_with_branch (stored : Option TicketMetadata) (repos : List String)
    (branch : String) : Except TicketError TicketMetadata :=
  match Ticket.load stored with
  | .error e => .error e
  | .ok t => .ok (repos.foldl (addRepoStep branch) t)

/-- Model of `Ticket::add_repo_branch` (src/core/ticket.rs lines
120-131). -/
def Ticket.add_repo_branch (stored : Option TicketMetadata) (repo branch : String) :
    Except TicketError TicketMetadata :=
  match Ticket.load stored with
  | .error e => .error e
  | .ok t => .ok (addRepoStep branch t repo)

/-- Model of `Ticket::remove_repo` (src/core/ticket.rs lines 134-142):
drop the alias from `repos` and its entry from `repo_branches`. -/
def Ticket.remove_repo (stored : Option TicketMetadata) (repo : String) :
    Except TicketError TicketMetadata :=
  match Ticket.load stored with
  | .error e => .error e
  | .ok t => .ok { t with repos := t.repos.filter (fun e => e ≠ repo),
                          repo_branches := eraseA t.repo_branches repo }

/-- Model of `Ticket::ensure_branch` (src/core/ticket.rs lines 145-152):
record the branch only when the stored one is empty. -/
def Ticket.ensure_branch (stored : Option TicketMetadata) (branch : String) :
    Except TicketError TicketMetadata :=
  match Ticket.load stored with
  | .error e => .error e
  | .ok t => .ok (if t.branch.isEmpty then { t with branch := branch } else t)

/-- The schema invariant of §3 of the spec: every key of `repo_branches`
is a member of `repos`. -/
def reposInvariant (m : TicketMetadata) : Bool :=
  m.repo_branches.all (fun p => m.repos.contains p.1)

/-! ## The setup per-repository loop (src/core/commands/setup.rs)

Lines 98-125: for each target alias that is registered, update the source
repository (`fetch_and_fast_forward`, line 108, its error propagated by
`?` after being logged) and create the worktree (line 116, its error
propagated by `?` with context).  `registered` models
`config.repositories.get`, and the per-alias outcomes of the two git
operations are inputs.  The result is the list of aliases whose worktree
creation completed, together with the error that aborted the loop, if
any. -/

def setupLoop (registered : String → Bool)
    (fetchRes createRes : String → Except String Unit) :
    List String → List String × Option String
  | [] => ([], none)
  | a :: rest =>
    if registered a then
      match fetchRes a with
      | .error e => ([], some e)
      | .ok _ =>
        match createRes a with
        | .error e => ([], some e)
        | .ok _ =>
          let res := setupLoop registered fetchRes createRes rest
          (a :: res.1, res.2)
    else setupLoop registered fetchRes createRes rest

/-- The metadata persisted by `setup` on the fresh-directory path
(src/core/commands/setup.rs lines 51-65): pair every target alias with
the computed branch name and call `Ticket::create`. -/
def setup_fresh_metadata (ticketId : String) (description : Option String)
    (branchName : String) (targetRepos : List String) (createdAt : String) : TicketMetadata :=
  Ticket.create ticketId description branchName
    (targetRepos.map (fun r => (r, branchName))) createdAt

/-! ## The remove command's cleanliness gate (src/core/commands/remove.rs) -/

/-- Errors of the remove command relevant to the gate. -/
inductive RemoveError where
  | missingWorktree
  | dirtyWorkingTree
deriving DecidableEq

/-- Lines 34-44 of src/core/commands/remove.rs: a successful clean check
passes, a successful check reporting uncommitted changes aborts with the
dirty-working-tree error, and a failed check (for example the worktree
cannot be opened as a repository) logs a warning and passes. -/
def remove_clean_gate (cleanRes : Except String Bool) : Except RemoveError Unit :=
  match cleanRes with
  | .ok true => .ok ()
  | .ok false => .error .dirtyWorkingTree
  | .error _ => .ok ()

/-- Lines 24-51 of src/core/commands/remove.rs: fail when the target
worktree directory does not exist; otherwise run the cleanliness gate and,
when it passes, proceed to `fs::remove_dir_all`.  The returned Bool
records that the directory was deleted. -/
def remove_run (worktreeExists : Bool) (cleanRes : Except String Bool) :
    Except RemoveError Bool :=
  if worktreeExists then
    match remove_clean_gate cleanRes with
    | .error e => .error e
    | .ok _ => .ok true
  else .error .missingWorktree

/-! ## Concrete states used to run the definitions -/

/-- A source repository holding the branch `feature/JIRA-1` and no
worktrees. -/
def exRepo : GitRepo :=
  { branches := [("feature/JIRA-1".data, 7)], worktrees := [], diskPaths := [],
    headBranch := some ("main".data), headCommit := some 1,
    headRefName := some ("refs/heads/main".data), originDefault := none,
    revTargets := [], remotes := [("origin".data)], branchUpstreams := [],
    refTargets := [], workdirAt := some 1 }

/-- The state of `exRepo` after a successful worktree creation for the
branch `feature/JIRA-1`. -/
def exRepoAfter : GitRepo :=
  { exRepo with worktrees := [("feature_JIRA-1".data, "p".data)],
                diskPaths := ["p".data] }

/-- A repository with one registered backend worktree record. -/
def exRepoWt : GitRepo :=
  { exRepo with worktrees := [("feature_JIRA-1".data, "p".data)],
                diskPaths := ["p".data, "q".data] }

/-- A repository on branch `main` with upstream `origin/main` one commit
ahead. -/
def exRepoFF : GitRepo :=
  { exRepo with branches := [("main".data, 1)],
                branchUpstreams := [("main".data, "origin/main".data)],
                refTargets := [("origin/main".data, 2)] }

/-- A repository with a detached HEAD. -/
def exRepoDetached : GitRepo :=
  { exRepo with headBranch := none }

/-- A stored record in the legacy schema: aliases listed, no per-repo
branch map. -/
def mLegacy : TicketMetadata :=
  { id := "T-9", description := none, created_at := "t0",
    branch := "feature/T-9", repos := ["api", "web"], repo_branches := [] }

/-- A stored record already carrying a per-repo branch entry. -/
def mStored : TicketMetadata :=
  { id := "T-9", description := none, created_at := "t0",
    branch := "feature/T-9", repos := ["api"],
    repo_branches := [("api", "feature/old")] }

/-! # Theorems -/

/-! ## Association-list lemmas -/

theorem lookupA_insertA_self [DecidableEq α] (m : List (α × β)) (k : α) (v : β) :
    lookupA (insertA m k v) k = some v := by
  induction m with
  | nil => simp [insertA, lookupA]
  | cons p rest ih =>
    obtain ⟨k0, v0⟩ := p
    by_cases h : k0 = k <;> simp [insertA, lookupA, h, ih]

theorem lookupA_insertA_ne [DecidableEq α] (m : List (α × β)) (k a : α) (v : β)
    (h : a ≠ k) : lookupA (insertA m k v) a = lookupA m a := by
  have hka : ¬(k = a) := fun hh => h hh.symm
  induction m with
  | nil =>
    simp only [insertA, lookupA]
    rw [if_neg hka]
  | cons p rest ih =>
    obtain ⟨k0, v0⟩ := p
    simp only [insertA]
    by_cases h0 : k0 = k
    · subst h0
      rw [if_pos rfl]
      simp only [lookupA]
      rw [if_neg hka, if_neg hka]
    · rw [if_neg h0]
      simp only [lookupA]
      by_cases h1 : k0 = a
      · rw [if_pos h1, if_pos h1]
      · rw [if_neg h1, if_neg h1]
        exact ih

theorem lookupA_append_of_some [DecidableEq α] (m m2 : List (α × β)) (a : α) (b : β)
    (h : lookupA m a = some b) : lookupA (m ++ m2) a = some b := by
  induction m with
  | nil => simp [lookupA] at h
  | cons p rest ih =>
    obtain ⟨k0, v0⟩ := p
    by_cases h0 : k0 = a
    · simp [lookupA, h0] at h ⊢; exact h
    · simp [lookupA, h0] at h ⊢; exact ih h

theorem lookupA_orInsertA_of_some [DecidableEq α] (m : List (α × β)) (k a : α) (v b : β)
    (h : lookupA m a = some b) : lookupA (orInsertA m k v) a = some b := by
  unfold orInsertA
  cases hk : lookupA m k with
  | some w => exact h
  | none => exact lookupA_append_of_some m [(k, v)] a b h

theorem lookupA_orInsertA_absent [DecidableEq α] (m : List (α × β)) (k : α) (v : β)
    (h : lookupA m k = none) : lookupA (orInsertA m k v) k = some v := by
  unfold orInsertA
  rw [h]
  induction m with
  | nil => simp [lookupA]
  | cons p rest ih =>
    obtain ⟨k0, v0⟩ := p
    by_cases h0 : k0 = k
    · simp [lookupA, h0] at h
    · simp [lookupA, h0] at h ⊢
      exact ih h

theorem lookupA_append_singleton_ne [DecidableEq α] (m : List (α × β)) (k a : α) (v : β)
    (h : a ≠ k) : lookupA (m ++ [(k, v)]) a = lookupA m a := by
  have hka : ¬(k = a) := fun hh => h hh.symm
  induction m with
  | nil =>
    simp only [List.nil_append, lookupA]
    rw [if_neg hka]
  | cons p rest ih =>
    obtain ⟨k0, v0⟩ := p
    simp only [List.cons_append, lookupA]
    by_cases h0 : k0 = a
    · rw [if_pos h0, if_pos h0]
    · rw [if_neg h0, if_neg h0]
      exact ih

theorem lookupA_orInsertA_other [DecidableEq α] (m : List (α × β)) (k a : α) (v : β)
    (h : a ≠ k) : lookupA (orInsertA m k v) a = lookupA m a := by
  unfold orInsertA
  cases hk : lookupA m k with
  | some w => rfl
  | none => exact lookupA_append_singleton_ne m k a v h

theorem mem_insertA [DecidableEq α] (m : List (α × β)) (k k' : α) (v v' : β)
    (h : (k', v') ∈ insertA m k v) : k' = k ∨ (k', v') ∈ m := by
  induction m with
  | nil => simp [insertA] at h; exact Or.inl h.1
  | cons p rest ih =>
    obtain ⟨k0, v0⟩ := p
    by_cases h0 : k0 = k <;> simp [insertA, h0] at h
    · rcases h with h | h
      · exact Or.inl h.1
      · exact Or.inr (by simp [h])
    · rcases h with h | h
      · exact Or.inr (by simp [h])
      · rcases ih h with h2 | h2
        · exact Or.inl h2
        · exact Or.inr (by simp [h2])

theorem mem_orInsertA [DecidableEq α] (m : List (α × β)) (k k' : α) (v v' : β)
    (h : (k', v') ∈ orInsertA m k v) : k' = k ∨ (k', v') ∈ m := by
  unfold orInsertA at h
  cases hk : lookupA m k with
  | some w => rw [hk] at h; exact Or.inr h
  | none =>
    rw [hk] at h
    simp at h
    rcases h with h | h
    · exact Or.inr h
    · exact Or.inl h.1

/-! ## Character lemmas -/

theorem toNat_ofNat_of_valid (n : Nat) (h : Nat.isValidChar n) :
    (Char.ofNat n).toNat = n := by
  unfold Char.ofNat
  split
  · rfl
  · contradiction

theorem isAsciiUpper_toAsciiLower (c : Char) : isAsciiUpper (toAsciiLower c) = false := by
  unfold toAsciiLower
  by_cases h : 65 ≤ c.toNat ∧ c.toNat ≤ 90
  · rw [if_pos h]
    have hv : Nat.isValidChar (c.toNat + 32) := Or.inl (by omega)
    simp only [isAsciiUpper, toNat_ofNat_of_valid _ hv]
    have : ¬(c.toNat + 32 ≤ 90) := by omega
    simp [this]
  · rw [if_neg h]
    simp only [isAsciiUpper]
    rcases Decidable.not_and_iff_or_not.mp h with h1 | h1 <;> simp [h1]

theorem toAsciiLower_ne_hyphen (c : Char) (h : c ≠ '-') : toAsciiLower c ≠ '-' := by
  unfold toAsciiLower
  by_cases hc : 65 ≤ c.toNat ∧ c.toNat ≤ 90
  · rw [if_pos hc]
    intro he
    have hv : Nat.isValidChar (c.toNat + 32) := Or.inl (by omega)
    have h1 : (Char.ofNat (c.toNat + 32)).toNat = c.toNat + 32 := toNat_ofNat_of_valid _ hv
    have h45 : ('-' : Char).toNat = 45 := by decide
    rw [he] at h1
    omega
  · rw [if_neg hc]
    exact h

/-! ## Sanitizer lemmas -/

theorem alnum_ne_hyphen {isAlnum : Char → Bool} (hhy : isAlnum '-' = false)
    {c : Char} (hc : isAlnum c = true) : toAsciiLower c ≠ '-' := by
  apply toAsciiLower_ne_hyphen
  intro he
  rw [he, hhy] at hc
  exact Bool.false_ne_true hc

theorem noDoubleHyphen_cons_of_ne {c : Char} (hc : c ≠ '-') {t : List Char}
    (ht : noDoubleHyphen t = true) : noDoubleHyphen (c :: t) = true := by
  cases t with
  | nil => rfl
  | cons d r => simp [noDoubleHyphen, hc, ht]

theorem noDoubleHyphen_cons_hyphen {t : List Char} (hh : headNotHyphen t = true)
    (ht : noDoubleHyphen t = true) : noDoubleHyphen ('-' :: t) = true := by
  cases t with
  | nil => rfl
  | cons d r =>
    simp only [headNotHyphen] at hh
    simp [noDoubleHyphen, ht]
    simpa using hh

theorem noDoubleHyphen_tail {c : Char} {t : List Char}
    (h : noDoubleHyphen (c :: t) = true) : noDoubleHyphen t = true := by
  cases t with
  | nil => rfl
  | cons d r =>
    simp only [noDoubleHyphen, Bool.and_eq_true] at h
    exact h.2

theorem headNotHyphen_sanitizeLoop {isAlnum : Char → Bool} (hhy : isAlnum '-' = false) :
    ∀ l : List Char, headNotHyphen (sanitizeLoop isAlnum l true) = true := by
  intro l
  induction l with
  | nil => rfl
  | cons c cs ih =>
    by_cases hc : isAlnum c = true
    · simp only [sanitizeLoop, hc, if_true, headNotHyphen]
      simp [alnum_ne_hyphen hhy hc]
    · simp only [sanitizeLoop, Bool.not_eq_true] at hc ⊢
      simp [hc, ih]

theorem noDoubleHyphen_sanitizeLoop {isAlnum : Char → Bool} (hhy : isAlnum '-' = false) :
    ∀ (l : List Char) (b : Bool), noDoubleHyphen (sanitizeLoop isAlnum l b) = true := by
  intro l
  induction l with
  | nil => intro b; rfl
  | cons c cs ih =>
    intro b
    by_cases hc : isAlnum c = true
    · simp only [sanitizeLoop, hc, if_true]
      exact noDoubleHyphen_cons_of_ne (alnum_ne_hyphen hhy hc) (ih false)
    · simp only [Bool.not_eq_true] at hc
      cases b with
      | true => simpa [sanitizeLoop, hc] using ih true
      | false =>
        simp only [sanitizeLoop, hc, Bool.false_eq_true, if_false]
        exact noDoubleHyphen_cons_hyphen (headNotHyphen_sanitizeLoop hhy cs) (ih true)

theorem noAsciiUpper_sanitizeLoop (isAlnum : Char → Bool) :
    ∀ (l : List Char) (b : Bool), noAsciiUpper (sanitizeLoop isAlnum l b) = true := by
  intro l
  induction l with
  | nil => intro b; rfl
  | cons c cs ih =>
    intro b
    by_cases hc : isAlnum c = true
    · simp only [sanitizeLoop, hc, if_true, noAsciiUpper, List.all_cons, Bool.and_eq_true]
      exact ⟨by simp [isAsciiUpper_toAsciiLower], ih false⟩
    · simp only [Bool.not_eq_true] at hc
      cases b with
      | true => simpa [sanitizeLoop, hc] using ih true
      | false =>
        simp only [sanitizeLoop, hc, Bool.false_eq_true, if_false, noAsciiUpper, List.all_cons,
          Bool.and_eq_true]
        exact ⟨by decide, ih true⟩

theorem noDoubleHyphen_concat_hyphens :
    ∀ l : List Char, noDoubleHyphen (l ++ ['-', '-']) = false := by
  intro l
  induction l with
  | nil => rfl
  | cons c cs ih =>
    have : ∃ d r, cs ++ ['-', '-'] = d :: r := by
      cases cs with
      | nil => exact ⟨'-', ['-'], rfl⟩
      | cons d r => exact ⟨d, r ++ ['-', '-'], rfl⟩
    obtain ⟨d, r, hdr⟩ := this
    simp only [List.cons_append, hdr, noDoubleHyphen]
    rw [← hdr, ih]
    simp

theorem headNotHyphen_dropLast {l : List Char} (h : headNotHyphen l = true) :
    headNotHyphen l.dropLast = true := by
  cases l with
  | nil => rfl
  | cons c cs =>
    cases cs with
    | nil => rfl
    | cons d r => simpa [headNotHyphen, List.dropLast] using h

theorem noDoubleHyphen_of_concat :
    ∀ (L : List Char) (x : Char), noDoubleHyphen (L ++ [x]) = true → noDoubleHyphen L = true
  | [], _, _ => rfl
  | [_], _, _ => rfl
  | c :: d :: r, x, h => by
    simp only [List.cons_append, noDoubleHyphen, Bool.and_eq_true] at h ⊢
    exact ⟨h.1, noDoubleHyphen_of_concat (d :: r) x h.2⟩

theorem noDoubleHyphen_trim {l : List Char} (h : noDoubleHyphen l = true) :
    noDoubleHyphen (trimTrailingHyphen l) = true := by
  unfold trimTrailingHyphen
  split
  · rcases List.eq_nil_or_concat l with rfl | ⟨L, x, rfl⟩
    · rfl
    · rw [List.concat_eq_append] at h ⊢
      rw [List.dropLast_concat]
      exact noDoubleHyphen_of_concat L x h
  · exact h

theorem noTrailingHyphen_trim {l : List Char} (h : noDoubleHyphen l = true) :
    noTrailingHyphen (trimTrailingHyphen l) = true := by
  unfold trimTrailingHyphen
  rcases List.eq_nil_or_concat l with rfl | ⟨L, x, rfl⟩
  · rfl
  · rw [List.concat_eq_append] at h ⊢
    rw [List.getLast?_concat]
    by_cases hx : x = '-'
    · subst hx
      rw [if_pos rfl, List.dropLast_concat]
      rcases List.eq_nil_or_concat L with rfl | ⟨M, y, rfl⟩
      · rfl
      · rw [List.concat_eq_append] at h ⊢
        by_cases hy : y = '-'
        · subst hy
          have h2 : noDoubleHyphen (M ++ ['-', '-']) = true := by
            simpa [List.append_assoc] using h
          rw [noDoubleHyphen_concat_hyphens] at h2
          exact absurd h2 (by simp)
        · simp [noTrailingHyphen, List.getLast?_concat, hy]
    · rw [if_neg (by simpa using hx)]
      simp [noTrailingHyphen, List.getLast?_concat, hx]

theorem noAsciiUpper_trim {l : List Char} (h : noAsciiUpper l = true) :
    noAsciiUpper (trimTrailingHyphen l) = true := by
  unfold trimTrailingHyphen
  split
  · unfold noAsciiUpper at h ⊢
    rw [List.all_eq_true] at h ⊢
    intro c hc
    exact h c (List.Sublist.subset (List.dropLast_sublist l) hc)
  · exact h

/-! ### Loop decomposition and flag lemmas -/

theorem sanitizeLoop_append (isAlnum : Char → Bool) :
    ∀ (l l2 : List Char) (b : Bool),
      sanitizeLoop isAlnum (l ++ l2) b =
        sanitizeLoop isAlnum l b ++ sanitizeLoop isAlnum l2 (sanitizeFlag isAlnum l b) := by
  intro l
  induction l with
  | nil => intro l2 b; rfl
  | cons c cs ih =>
    intro l2 b
    by_cases hc : isAlnum c = true
    · simp [sanitizeLoop, sanitizeFlag, hc, ih]
    · simp only [Bool.not_eq_true] at hc
      cases b with
      | true => simp [sanitizeLoop, sanitizeFlag, hc, ih]
      | false => simp [sanitizeLoop, sanitizeFlag, hc, ih]

theorem sanitizeLoop_ne_nil_of_flag_false {isAlnum : Char → Bool} :
    ∀ l : List Char, sanitizeFlag isAlnum l true = false →
      sanitizeLoop isAlnum l true ≠ [] := by
  intro l
  induction l with
  | nil => intro h; exact absurd h (by simp [sanitizeFlag])
  | cons c cs ih =>
    intro h
    by_cases hc : isAlnum c = true
    · simp [sanitizeLoop, hc]
    · simp only [Bool.not_eq_true] at hc
      simp only [sanitizeFlag, hc, Bool.false_eq_true, if_false] at h
      simp only [sanitizeLoop, hc, Bool.false_eq_true, if_false, if_true]
      exact ih h

theorem getLast?_sanitizeLoop_of_flag_false {isAlnum : Char → Bool}
    (hhy : isAlnum '-' = false) :
    ∀ (l : List Char) (b : Bool), sanitizeFlag isAlnum l b = false →
      (sanitizeLoop isAlnum l b).getLast? ≠ some '-' := by
  intro l
  induction l with
  | nil =>
    intro b _
    simp [sanitizeLoop]
  | cons c cs ih =>
    intro b h
    by_cases hc : isAlnum c = true
    · simp only [sanitizeFlag, hc, if_true] at h
      simp only [sanitizeLoop, hc, if_true]
      cases hcs : sanitizeLoop isAlnum cs false with
      | nil => simp [alnum_ne_hyphen hhy hc]
      | cons d r =>
        rw [List.getLast?_cons_cons]
        rw [← hcs]
        exact ih false h
    · simp only [Bool.not_eq_true] at hc
      simp only [sanitizeFlag, hc, Bool.false_eq_true, if_false] at h
      cases b with
      | true =>
        simp only [sanitizeLoop, hc, Bool.false_eq_true, if_false, if_true]
        exact ih true h
      | false =>
        simp only [sanitizeLoop, hc, Bool.false_eq_true, if_false]
        cases hcs : sanitizeLoop isAlnum cs true with
        | nil => exact absurd hcs (sanitizeLoop_ne_nil_of_flag_false cs h)
        | cons d r =>
          rw [List.getLast?_cons_cons]
          rw [← hcs]
          exact ih true h

theorem sanitizeLoop_all_alnum {isAlnum : Char → Bool} :
    ∀ (l : List Char) (b : Bool), (∀ c ∈ l, isAlnum c = true) →
      sanitizeLoop isAlnum l b = l.map toAsciiLower := by
  intro l
  induction l with
  | nil => intro b _; rfl
  | cons c cs ih =>
    intro b h
    have hc : isAlnum c = true := h c (List.mem_cons_self c cs)
    simp only [sanitizeLoop, hc, if_true, List.map_cons, List.cons.injEq, true_and]
    exact ih false (fun d hd => h d (List.mem_cons_of_mem c hd))

theorem headNotHyphen_trim {l : List Char} (h : headNotHyphen l = true) :
    headNotHyphen (trimTrailingHyphen l) = true := by
  unfold trimTrailingHyphen
  split
  · exact headNotHyphen_dropLast h
  · exact h

theorem sanitize_cons_sep {isAlnum : Char → Bool} {c : Char} (hc : isAlnum c = false)
    (l : List Char) :
    sanitize_description isAlnum (c :: l) = sanitize_description isAlnum l := by
  unfold sanitize_description
  simp [sanitizeLoop, hc]

theorem sanitizeLoop_collapse {isAlnum : Char → Bool} {c : Char} (hc : isAlnum c = false)
    (rest : List Char) (b : Bool) :
    sanitizeLoop isAlnum (c :: c :: rest) b = sanitizeLoop isAlnum (c :: rest) b := by
  cases b <;> simp [sanitizeLoop, hc]

theorem sanitizeFlag_collapse {isAlnum : Char → Bool} {c : Char} (hc : isAlnum c = false)
    (rest : List Char) (b : Bool) :
    sanitizeFlag isAlnum (c :: c :: rest) b = sanitizeFlag isAlnum (c :: rest) b := by
  simp [sanitizeFlag, hc]

theorem sanitize_collapse {isAlnum : Char → Bool} {c : Char} (hc : isAlnum c = false)
    (pre rest : List Char) :
    sanitize_description isAlnum (pre ++ c :: c :: rest) =
      sanitize_description isAlnum (pre ++ c :: rest) := by
  unfold sanitize_description
  rw [sanitizeLoop_append, sanitizeLoop_append, sanitizeLoop_collapse hc]

theorem sanitize_concat_sep {isAlnum : Char → Bool} (hhy : isAlnum '-' = false)
    {c : Char} (hc : isAlnum c = false) (l : List Char) :
    sanitize_description isAlnum (l ++ [c]) = sanitize_description isAlnum l := by
  unfold sanitize_description
  rw [sanitizeLoop_append]
  cases hf : sanitizeFlag isAlnum l true with
  | true => simp [sanitizeLoop, hc]
  | false =>
    have hlast := getLast?_sanitizeLoop_of_flag_false hhy l true hf
    simp only [sanitizeLoop, hc, Bool.false_eq_true, if_false]
    unfold trimTrailingHyphen
    rw [List.getLast?_concat]
    rw [if_pos rfl, List.dropLast_concat]
    rw [if_neg hlast]

theorem sanitize_all_alnum {isAlnum : Char → Bool} (hhy : isAlnum '-' = false)
    (desc : List Char) (h : ∀ c ∈ desc, isAlnum c = true) :
    sanitize_description isAlnum desc = desc.map toAsciiLower := by
  unfold sanitize_description
  rw [sanitizeLoop_all_alnum desc true h]
  unfold trimTrailingHyphen
  rcases List.eq_nil_or_concat desc with rfl | ⟨L, x, rfl⟩
  · rfl
  · rw [List.concat_eq_append]
    simp only [List.map_append, List.map_cons, List.map_nil]
    rw [List.getLast?_concat]
    have hx : isAlnum x = true := h x (by simp)
    rw [if_neg (by simpa using alnum_ne_hyphen hhy hx)]

theorem no_slash_worktree_name (branch : List Char) :
    '/' ∉ worktree_name_for_branch branch := by
  unfold worktree_name_for_branch
  rw [List.mem_map]
  rintro ⟨c, _, hc⟩
  by_cases h : c = '/'
  · rw [if_pos h] at hc
    exact absurd hc (by decide)
  · rw [if_neg h] at hc
    exact h hc

/-! ## Claim theorems -/

/-- C2: the derived branch name is `prefix/ticketId`, with `-sanitized`
appended exactly when a description is given and its sanitization is
non-empty; sanitization lowercases and keeps alphanumerics, collapses any
run of other characters to a single hyphen, and trims leading and
trailing separators, so its output never has a leading or trailing
hyphen, an ASCII uppercase letter, or two consecutive hyphens; and the
derivation is deterministic.  `isAlnum` is the stdlib alphanumeric
predicate, assumed only to reject the hyphen (which it does). -/
theorem c2_branch_name_derivation (isAlnum : Char → Bool) (hhy : isAlnum '-' = false)
    (branchPfx ticketId desc : List Char) :
    build_branch_name isAlnum branchPfx ticketId none = branchPfx ++ '/' :: ticketId
    ∧ (sanitize_description isAlnum desc = [] →
        build_branch_name isAlnum branchPfx ticketId (some desc) =
          branchPfx ++ '/' :: ticketId)
    ∧ (sanitize_description isAlnum desc ≠ [] →
        build_branch_name isAlnum branchPfx ticketId (some desc) =
          branchPfx ++ '/' :: ticketId ++ '-' :: sanitize_description isAlnum desc)
    ∧ ((∀ c ∈ desc, isAlnum c = true) →
        sanitize_description isAlnum desc = desc.map toAsciiLower)
    ∧ (∀ (c : Char) (pre rest : List Char), isAlnum c = false →
        sanitize_description isAlnum (pre ++ c :: c :: rest) =
          sanitize_description isAlnum (pre ++ c :: rest))
    ∧ (∀ (c : Char) (rest : List Char), isAlnum c = false →
        sanitize_description isAlnum (c :: rest) = sanitize_description isAlnum rest)
    ∧ (∀ (c : Char) (pre : List Char), isAlnum c = false →
        sanitize_description isAlnum (pre ++ [c]) = sanitize_description isAlnum pre)
    ∧ headNotHyphen (sanitize_description isAlnum desc) = true
    ∧ noTrailingHyphen (sanitize_description isAlnum desc) = true
    ∧ noDoubleHyphen (sanitize_description isAlnum desc) = true
    ∧ noAsciiUpper (sanitize_description isAlnum desc) = true
    ∧ (∀ (p2 t2 : List Char) (d2 : Option (List Char)), branchPfx = p2 → ticketId = t2 →
        build_branch_name isAlnum branchPfx ticketId d2 =
          build_branch_name isAlnum p2 t2 d2) := by
  refine ⟨rfl, ?_, ?_, ?_, ?_, ?_, ?_, ?_, ?_, ?_, ?_, ?_⟩
  · intro h
    simp [build_branch_name, h]
  · intro h
    simp only [build_branch_name]
    rw [if_neg (by simpa [List.isEmpty_iff] using h)]
  · exact sanitize_all_alnum hhy desc
  · intro c pre rest hc
    exact sanitize_collapse hc pre rest
  · intro c rest hc
    exact sanitize_cons_sep hc rest
  · intro c pre hc
    exact sanitize_concat_sep hhy hc pre
  · exact headNotHyphen_trim (headNotHyphen_sanitizeLoop hhy desc)
  · exact noTrailingHyphen_trim (noDoubleHyphen_sanitizeLoop hhy desc true)
  · exact noDoubleHyphen_trim (noDoubleHyphen_sanitizeLoop hhy desc true)
  · exact noAsciiUpper_trim (noAsciiUpper_sanitizeLoop isAlnum desc true)
  · intro p2 t2 d2 hp ht
    rw [hp, ht]

/-- Witness for C2 at the repository's own test input: prefix `feature`,
ticket `JIRA-1`, description `My Feature`. -/
theorem c2_branch_name_derivation_witness :
    char_is_alphanumeric '-' = false ∧
    sanitize_description char_is_alphanumeric ("My Feature".data) ≠ [] ∧
    build_branch_name char_is_alphanumeric ("feature".data) ("JIRA-1".data)
        (some ("My Feature".data)) =
      "feature".data ++ '/' :: "JIRA-1".data ++
        '-' :: sanitize_description char_is_alphanumeric ("My Feature".data) :=
  ⟨by decide, by decide,
    (c2_branch_name_derivation char_is_alphanumeric (by decide) ("feature".data)
      ("JIRA-1".data) ("My Feature".data)).2.2.1 (by decide)⟩

/-- C3: the worktree name that `create_worktree` registers in the backend
equals `worktree_name_for_branch` of the branch (the derivation used later
when pruning): the two call sites compute the same function, and the
derived name of any branch — in particular of any derived branch name —
never contains a slash. -/
theorem c3_worktree_name_agreement (branch : List Char) (repo : GitRepo)
    (targetPath branchName : List Char) (baseRef : Option (List Char)) (st : GitRepo)
    (h : create_worktree repo targetPath branchName baseRef = .ok st) :
    worktreeNameInCreate branch = worktree_name_for_branch branch
    ∧ lookupA st.worktrees (worktree_name_for_branch branchName) = some targetPath
    ∧ '/' ∉ worktree_name_for_branch branch
    ∧ (∀ (isAlnum : Char → Bool) (p t : List Char) (d : Option (List Char)),
        '/' ∉ worktree_name_for_branch (build_branch_name isAlnum p t d)) := by
  refine ⟨rfl, ?_, no_slash_worktree_name branch,
    fun isAlnum p t d => no_slash_worktree_name (build_branch_name isAlnum p t d)⟩
  unfold create_worktree at h
  cases hres : resolveBranchState repo branchName baseRef with
  | error e =>
    rw [hres] at h
    exact absurd h (by simp)
  | ok st2 =>
    rw [hres] at h
    split at h
    · exact absurd h (by simp)
    · dsimp only [] at h
      split at h
      · exact absurd h (by simp)
      · rw [Except.ok.injEq] at h
        subst h
        exact lookupA_insertA_self _ _ _

/-- Witness for C3: creating a worktree for `feature/JIRA-1` in `exRepo`
succeeds and registers it under `feature_JIRA-1`. -/
theorem c3_worktree_name_agreement_witness :
    create_worktree exRepo ("p".data) ("feature/JIRA-1".data) none = .ok exRepoAfter ∧
    lookupA exRepoAfter.worktrees (worktree_name_for_branch ("feature/JIRA-1".data)) =
      some ("p".data) :=
  ⟨by decide,
    (c3_worktree_name_agreement ("feature/JIRA-1".data) exRepo ("p".data)
      ("feature/JIRA-1".data) none exRepoAfter (by decide)).2.1⟩

/-! ## Ticket metadata lemmas -/

theorem lookupA_foldl_insertA [DecidableEq α] :
    ∀ (l : List α) (acc : List (α × β)) (a : α) (br : β),
      (a ∈ l ∨ lookupA acc a = some br) →
      lookupA (l.foldl (fun mm x => insertA mm x br) acc) a = some br := by
  intro l
  induction l with
  | nil =>
    intro acc a br h
    rcases h with h | h
    · exact absurd h (List.not_mem_nil a)
    · exact h
  | cons x rest ih =>
    intro acc a br h
    rw [List.foldl_cons]
    by_cases hax : a = x
    · subst hax
      exact ih _ a br (Or.inr (lookupA_insertA_self acc a br))
    · rcases h with h | h
      · rcases List.mem_cons.mp h with h | h
        · exact absurd h hax
        · exact ih _ a br (Or.inl h)
      · refine ih _ a br (Or.inr ?_)
        rw [lookupA_insertA_ne acc x a br hax]
        exact h

theorem mem_foldl_insertA [DecidableEq α] :
    ∀ (l : List α) (acc : List (α × β)) (k : α) (v br : β),
      (k, v) ∈ l.foldl (fun mm x => insertA mm x br) acc → (k, v) ∈ acc ∨ k ∈ l := by
  intro l
  induction l with
  | nil => intro acc k v br h; exact Or.inl h
  | cons x rest ih =>
    intro acc k v br h
    rw [List.foldl_cons] at h
    rcases ih _ k v br h with h2 | h2
    · rcases mem_insertA acc x k br v h2 with h3 | h3
      · exact Or.inr (by simp [h3])
      · exact Or.inl h3
    · exact Or.inr (List.mem_cons_of_mem x h2)

theorem healTicket_repos (m : TicketMetadata) : (healTicket m).repos = m.repos := by
  unfold healTicket
  split <;> rfl

theorem healTicket_of_branches_ne (m : TicketMetadata) (h : m.repo_branches ≠ []) :
    healTicket m = m := by
  unfold healTicket
  rw [if_neg]
  simp [List.isEmpty_iff, h]

theorem healTicket_lookup_of_some (m : TicketMetadata) (a b : String)
    (h : lookupA m.repo_branches a = some b) :
    lookupA (healTicket m).repo_branches a = some b := by
  by_cases hb : m.repo_branches = []
  · rw [hb] at h
    exact absurd h (by simp [lookupA])
  · rw [healTicket_of_branches_ne m hb]
    exact h

theorem healTicket_legacy (m : TicketMetadata) (hb : m.repo_branches = [])
    (hr : m.repos ≠ []) :
    ∀ a ∈ m.repos, lookupA (healTicket m).repo_branches a = some m.branch := by
  intro a ha
  unfold healTicket
  rw [if_pos (by simp [List.isEmpty_iff, hb, hr])]
  exact lookupA_foldl_insertA m.repos m.repo_branches a m.branch (Or.inl ha)

theorem addRepoStep_repo_branches (br : String) (t : TicketMetadata) (r : String) :
    (addRepoStep br t r).repo_branches = orInsertA t.repo_branches r br := by
  unfold addRepoStep
  split <;> rfl

theorem addRepoStep_repos_mono (br : String) (t : TicketMetadata) (r a : String)
    (h : a ∈ t.repos) : a ∈ (addRepoStep br t r).repos := by
  unfold addRepoStep
  split <;> simp [h]

theorem addRepoStep_repos_self (br : String) (t : TicketMetadata) (r : String) :
    r ∈ (addRepoStep br t r).repos := by
  unfold addRepoStep
  split
  · next hc => exact List.elem_iff.mp hc
  · simp

theorem foldl_addRepoStep_lookup_some (br a b : String) :
    ∀ (l : List String) (t : TicketMetadata),
      lookupA t.repo_branches a = some b →
      lookupA ((l.foldl (addRepoStep br) t)).repo_branches a = some b := by
  intro l
  induction l with
  | nil => intro t h; exact h
  | cons x rest ih =>
    intro t h
    rw [List.foldl_cons]
    refine ih _ ?_
    rw [addRepoStep_repo_branches]
    exact lookupA_orInsertA_of_some _ _ _ _ _ h

theorem foldl_addRepoStep_repos_mono (br a : String) :
    ∀ (l : List String) (t : TicketMetadata),
      a ∈ t.repos → a ∈ ((l.foldl (addRepoStep br) t)).repos := by
  intro l
  induction l with
  | nil => intro t h; exact h
  | cons x rest ih =>
    intro t h
    rw [List.foldl_cons]
    exact ih _ (addRepoStep_repos_mono br t x a h)

theorem foldl_addRepoStep_repos_of_mem (br a : String) :
    ∀ (l : List String) (t : TicketMetadata),
      a ∈ l → a ∈ ((l.foldl (addRepoStep br) t)).repos := by
  intro l
  induction l with
  | nil => intro t h; exact absurd h (List.not_mem_nil a)
  | cons x rest ih =>
    intro t h
    rw [List.foldl_cons]
    rcases List.mem_cons.mp h with h | h
    · subst h
      exact foldl_addRepoStep_repos_mono br a rest _ (addRepoStep_repos_self br t a)
    · exact ih _ h

theorem foldl_addRepoStep_set_absent (br a : String) :
    ∀ (l : List String) (t : TicketMetadata),
      a ∈ l → lookupA t.repo_branches a = none →
      lookupA ((l.foldl (addRepoStep br) t)).repo_branches a = some br := by
  intro l
  induction l with
  | nil => intro t h _; exact absurd h (List.not_mem_nil a)
  | cons x rest ih =>
    intro t h hnone
    rw [List.foldl_cons]
    by_cases hax : a = x
    · subst hax
      refine foldl_addRepoStep_lookup_some br a br rest _ ?_
      rw [addRepoStep_repo_branches]
      exact lookupA_orInsertA_absent _ _ _ hnone
    · rcases List.mem_cons.mp h with h2 | h2
      · exact absurd h2 hax
      · refine ih _ h2 ?_
        rw [addRepoStep_repo_branches]
        rw [lookupA_orInsertA_other _ _ _ _ hax]
        exact hnone

theorem reposInvariant_iff (m : TicketMetadata) :
    reposInvariant m = true ↔ ∀ k v, (k, v) ∈ m.repo_branches → k ∈ m.repos := by
  unfold reposInvariant
  rw [List.all_eq_true]
  constructor
  · intro h k v hkv
    exact List.elem_iff.mp (h (k, v) hkv)
  · intro h p hp
    exact List.elem_iff.mpr (h p.1 p.2 hp)

theorem reposInvariant_addRepoStep (br : String) (t : TicketMetadata) (r : String)
    (h : reposInvariant t = true) : reposInvariant (addRepoStep br t r) = true := by
  rw [reposInvariant_iff] at h ⊢
  intro k v hkv
  rw [addRepoStep_repo_branches] at hkv
  have ht2 : (addRepoStep br t r).repo_branches = orInsertA t.repo_branches r br :=
    addRepoStep_repo_branches br t r
  rcases mem_orInsertA _ _ _ _ _ hkv with h2 | h2
  · subst h2
    exact addRepoStep_repos_self br t k
  · exact addRepoStep_repos_mono br t r k (h k v h2)

theorem reposInvariant_foldl_addRepoStep (br : String) :
    ∀ (l : List String) (t : TicketMetadata),
      reposInvariant t = true → reposInvariant (l.foldl (addRepoStep br) t) = true := by
  intro l
  induction l with
  | nil => intro t h; exact h
  | cons x rest ih =>
    intro t h
    rw [List.foldl_cons]
    exact ih _ (reposInvariant_addRepoStep br t x h)

theorem reposInvariant_healTicket (m : TicketMetadata)
    (h : reposInvariant m = true) : reposInvariant (healTicket m) = true := by
  rw [reposInvariant_iff] at h ⊢
  intro k v hkv
  rw [healTicket_repos]
  unfold healTicket at hkv
  by_cases hg : (m.repo_branches.isEmpty && !m.repos.isEmpty) = true
  · rw [if_pos hg] at hkv
    simp only [] at hkv
    rcases mem_foldl_insertA m.repos m.repo_branches k v m.branch hkv with h2 | h2
    · exact h k v h2
    · exact h2
  · rw [if_neg hg] at hkv
    exact h k v hkv

/-- C5: loading fails with NotFound when no record exists; a loaded record
with empty `repoBranches` and non-empty `repos` is healed so that every
alias maps to the ticket-level branch; a record whose `repoBranches` is
already non-empty is returned unchanged. -/
theorem c5_load_self_heal (m : TicketMetadata) :
    Ticket.load none = .error TicketError.notFound
    ∧ Ticket.load (some m) = .ok (healTicket m)
    ∧ (m.repo_branches = [] → m.repos ≠ [] →
        ∀ a ∈ m.repos, lookupA (healTicket m).repo_branches a = some m.branch)
    ∧ (m.repo_branches ≠ [] → healTicket m = m) := by
  exact ⟨rfl, rfl, healTicket_legacy m, healTicket_of_branches_ne m⟩

/-- Witness for C5 on a legacy record with aliases `api` and `web`:
loading maps both to the ticket branch. -/
theorem c5_load_self_heal_witness :
    mLegacy.repo_branches = [] ∧ mLegacy.repos ≠ [] ∧
    lookupA (healTicket mLegacy).repo_branches ("web") = some ("feature/T-9") :=
  ⟨rfl, by decide,
    (c5_load_self_heal mLegacy).2.2.1 rfl (by decide) ("web") (by decide)⟩

/-- C6: `add_repos_with_branch` unions the aliases into `repos` and sets
`repoBranches[alias] = branch` only for aliases with no existing entry;
an alias's previously recorded branch — whether recorded in the stored
map or seeded by the self-heal — is never overwritten, even when the call
passes a different branch value. -/
theorem c6_add_repos_no_overwrite (m : TicketMetadata) (aliases : List String)
    (branch a b : String) (t : TicketMetadata)
    (hres : Ticket.add_repos_with_branch (some m) aliases branch = .ok t) :
    (lookupA m.repo_branches a = some b → lookupA t.repo_branches a = some b)
    ∧ (lookupA (healTicket m).repo_branches a = some b →
        lookupA t.repo_branches a = some b)
    ∧ (a ∈ aliases → a ∈ t.repos)
    ∧ (a ∈ m.repos → a ∈ t.repos)
    ∧ (a ∈ aliases → lookupA (healTicket m).repo_branches a = none →
        lookupA t.repo_branches a = some branch) := by
  have ht : t = aliases.foldl (addRepoStep branch) (healTicket m) := by
    unfold Ticket.add_repos_with_branch Ticket.load at hres
    rw [Except.ok.injEq] at hres
    exact hres.symm
  subst ht
  refine ⟨?_, ?_, ?_, ?_, ?_⟩
  · intro h
    exact foldl_addRepoStep_lookup_some branch a b aliases _
      (healTicket_lookup_of_some m a b h)
  · intro h
    exact foldl_addRepoStep_lookup_some branch a b aliases _ h
  · intro h
    exact foldl_addRepoStep_repos_of_mem branch a aliases _ h
  · intro h
    refine foldl_addRepoStep_repos_mono branch a aliases _ ?_
    rw [healTicket_repos]
    exact h
  · intro h hnone
    exact foldl_addRepoStep_set_absent branch a aliases _ h hnone

/-- Witness for C6: a repeated setup passing branch `feature/new` for an
alias already recorded with `feature/old` leaves the old entry intact. -/
theorem c6_add_repos_no_overwrite_witness :
    Ticket.add_repos_with_branch (some mStored) ["api", "web"] ("feature/new") =
      .ok (["api", "web"].foldl (addRepoStep ("feature/new")) (healTicket mStored)) ∧
    lookupA mStored.repo_branches ("api") = some ("feature/old") ∧
    lookupA ((["api", "web"].foldl (addRepoStep ("feature/new"))
        (healTicket mStored))).repo_branches ("api") = some ("feature/old") :=
  ⟨by decide, by decide,
    (c6_add_repos_no_overwrite mStored ["api", "web"] ("feature/new") ("api")
      ("feature/old") _ (by decide)).1 (by decide)⟩

/-- C7: every key of `repoBranches` is a member of `repos`, and every
metadata operation — create, load with self-heal, addReposWithBranch,
addRepoBranch, removeRepo, ensureBranch — preserves this invariant on the
record it persists. -/
theorem c7_repos_invariant_preserved :
    (∀ (id : String) (d : Option String) (br : String)
        (pairs : List (String × String)) (ca : String),
      reposInvariant (Ticket.create id d br pairs ca) = true)
    ∧ (∀ m, reposInvariant m = true → reposInvariant (healTicket m) = true)
    ∧ (∀ m t, reposInvariant m = true → Ticket.load (some m) = .ok t →
        reposInvariant t = true)
    ∧ (∀ m al br t, reposInvariant m = true →
        Ticket.add_repos_with_branch (some m) al br = .ok t → reposInvariant t = true)
    ∧ (∀ m r br t, reposInvariant m = true →
        Ticket.add_repo_branch (some m) r br = .ok t → reposInvariant t = true)
    ∧ (∀ m r t, reposInvariant m = true →
        Ticket.remove_repo (some m) r = .ok t → reposInvariant t = true)
    ∧ (∀ m br t, reposInvariant m = true →
        Ticket.ensure_branch (some m) br = .ok t → reposInvariant t = true) := by
  have hload : ∀ m t, Ticket.load (some m) = Except.ok t → t = healTicket m := by
    intro m t h
    unfold Ticket.load at h
    rw [Except.ok.injEq] at h
    exact h.symm
  refine ⟨?_, reposInvariant_healTicket, ?_, ?_, ?_, ?_, ?_⟩
  · intro id d br pairs ca
    rw [reposInvariant_iff]
    intro k v hkv
    unfold Ticket.create
    unfold Ticket.create at hkv
    exact List.mem_map.mpr ⟨(k, v), hkv, rfl⟩
  · intro m t h hl
    rw [hload m t hl]
    exact reposInvariant_healTicket m h
  · intro m al br t h hres
    unfold Ticket.add_repos_with_branch Ticket.load at hres
    rw [Except.ok.injEq] at hres
    rw [← hres]
    exact reposInvariant_foldl_addRepoStep br al _ (reposInvariant_healTicket m h)
  · intro m r br t h hres
    unfold Ticket.add_repo_branch Ticket.load at hres
    rw [Except.ok.injEq] at hres
    rw [← hres]
    exact reposInvariant_addRepoStep br _ r (reposInvariant_healTicket m h)
  · intro m r t h hres
    unfold Ticket.remove_repo Ticket.load at hres
    rw [Except.ok.injEq] at hres
    rw [← hres]
    rw [reposInvariant_iff] at h ⊢
    intro k v hkv
    simp only [eraseA, List.mem_filter] at hkv
    have hk : k ∈ (healTicket m).repos := by
      have := reposInvariant_healTicket m (by rw [reposInvariant_iff]; exact h)
      rw [reposInvariant_iff] at this
      exact this k v hkv.1
    simp only [List.mem_filter]
    refine ⟨hk, ?_⟩
    simpa using hkv.2
  · intro m br t h hres
    unfold Ticket.ensure_branch Ticket.load at hres
    rw [Except.ok.injEq] at hres
    rw [← hres]
    have hh := reposInvariant_healTicket m h
    rw [reposInvariant_iff] at hh ⊢
    split <;> exact hh

/-- Witness for C7: the invariant holds after removing alias `api` from
the stored record. -/
theorem c7_repos_invariant_preserved_witness :
    reposInvariant mStored = true ∧
    Ticket.remove_repo (some mStored) ("api") =
      .ok { healTicket mStored with
              repos := (healTicket mStored).repos.filter (fun e => e ≠ "api"),
              repo_branches := eraseA (healTicket mStored).repo_branches ("api") } ∧
    reposInvariant
      { healTicket mStored with
          repos := (healTicket mStored).repos.filter (fun e => e ≠ "api"),
          repo_branches := eraseA (healTicket mStored).repo_branches ("api") } = true :=
  ⟨by decide, by decide,
    (c7_repos_invariant_preserved).2.2.2.2.2.1 mStored ("api") _ (by decide) (by decide)⟩

/-! ## Setup loop, metadata persistence, and remove gate -/

/-- C1 counterexample: in the per-repository loop of `setup`, a failing
worktree creation for the first repository aborts the run — the second
repository is not processed, refuting continue-on-error processing. -/
theorem c1_continue_on_error_counterexample :
    setupLoop (fun _ => true) (fun _ => .ok ())
        (fun a => if a = "a" then .error ("boom") else .ok ()) ["a", "b"] =
      ([], some ("boom")) ∧
    "b" ∉ (setupLoop (fun _ => true) (fun _ => .ok ())
        (fun a => if a = "a" then .error ("boom") else .ok ()) ["a", "b"]).1 := by
  refine ⟨by decide, by decide⟩

/-- C1 (amended): the per-repository loop of `setup` is fail-fast, not
continue-on-error: when the repositories before `a` succeed and `a`'s
fetch-and-fast-forward or worktree creation fails, the loop stops with
that error; exactly the registered repositories before `a` were processed
and no repository after `a` is processed. -/
theorem c1_setup_loop_fail_fast (registered : String → Bool)
    (fetchRes createRes : String → Except String Unit)
    (pre post : List String) (a e : String)
    (hpre : ∀ x ∈ pre, registered x = true → fetchRes x = .ok () ∧ createRes x = .ok ())
    (ha : registered a = true)
    (hfail : fetchRes a = .error e ∨ (fetchRes a = .ok () ∧ createRes a = .error e)) :
    setupLoop registered fetchRes createRes (pre ++ a :: post) =
      (pre.filter registered, some e) := by
  induction pre with
  | nil =>
    simp only [List.nil_append, List.filter_nil]
    rcases hfail with h | ⟨h1, h2⟩
    · simp [setupLoop, ha, h]
    · simp [setupLoop, ha, h1, h2]
  | cons x rest ih =>
    simp only [List.cons_append, List.filter_cons]
    by_cases hx : registered x = true
    · obtain ⟨hf, hc⟩ := hpre x (List.mem_cons_self x rest) hx
      simp only [setupLoop, hx, if_true, hf, hc]
      rw [ih (fun y hy => hpre y (List.mem_cons_of_mem x hy))]
    · simp only [Bool.not_eq_true] at hx
      simp only [setupLoop, hx, Bool.false_eq_true, if_false]
      rw [ih (fun y hy => hpre y (List.mem_cons_of_mem x hy))]

/-- Witness for the amended C1: with `b` failing, only `a` is processed
and `c` is skipped. -/
theorem c1_setup_loop_fail_fast_witness :
    setupLoop (fun _ => true) (fun _ => .ok ())
        (fun r => if r = "b" then .error ("boom") else .ok ())
        (["a"] ++ "b" :: ["c"]) =
      (["a"].filter (fun _ => true), some ("boom")) :=
  c1_setup_loop_fail_fast (fun _ => true) (fun _ => .ok ())
    (fun r => if r = "b" then .error ("boom") else .ok ()) ["a"] ["c"] ("b") ("boom")
    (by decide) rfl (Or.inr ⟨rfl, by decide⟩)

/-- C4: the metadata persisted by a fresh `setup` for ticket `JIRA-1`
with target `api` records exactly the fields of `TicketMetadata` — id,
description, timestamp, ticket branch, repo set and per-repo branch map.
The record carries no worktree-name association: the schema in
src/core/ticket.rs has no `repo_worktrees` field, although
src/core/commands/remove.rs line 67 and tests/cli_integration.rs line 182
read one. -/
theorem c4_setup_metadata_fields :
    setup_fresh_metadata ("JIRA-1") (some ("My Feature")) ("feature/JIRA-1-my-feature")
        ["api"] ("t0") =
      { id := "JIRA-1", description := some ("My Feature"), created_at := "t0",
        branch := "feature/JIRA-1-my-feature", repos := ["api"],
        repo_branches := [("api", "feature/JIRA-1-my-feature")] }
    ∧ String.mk (build_branch_name char_is_alphanumeric ("feature".data) ("JIRA-1".data)
        (some ("My Feature".data))) = "feature/JIRA-1-my-feature" := by
  refine ⟨by decide, by decide⟩

/-- C8: `remove_worktree` on a name unknown to the backend returns
success without any effect, on a first and on a repeated call; on a known
name it prunes exactly that backend worktree record, and in every case
the working directory, the on-disk paths and the branches are
untouched. -/
theorem c8_remove_worktree_spec (st : GitRepo) (name p : List Char) :
    (lookupA st.worktrees name = none →
      remove_worktree st name = .ok st ∧
      Except.bind (remove_worktree st name) (fun st2 => remove_worktree st2 name) =
        .ok st)
    ∧ (lookupA st.worktrees name = some p →
        remove_worktree st name = .ok { st with worktrees := eraseA st.worktrees name })
    ∧ (∀ st2, remove_worktree st name = .ok st2 →
        st2.diskPaths = st.diskPaths ∧ st2.workdirAt = st.workdirAt ∧
        st2.branches = st.branches ∧ st2.headBranch = st.headBranch) := by
  refine ⟨?_, ?_, ?_⟩
  · intro h
    have h1 : remove_worktree st name = .ok st := by
      unfold remove_worktree
      rw [h]
    refine ⟨h1, ?_⟩
    rw [h1]
    exact h1
  · intro h
    unfold remove_worktree
    rw [h]
  · intro st2 h
    unfold remove_worktree at h
    cases hl : lookupA st.worktrees name with
    | none =>
      rw [hl, Except.ok.injEq] at h
      subst h
      exact ⟨rfl, rfl, rfl, rfl⟩
    | some q =>
      rw [hl, Except.ok.injEq] at h
      subst h
      exact ⟨rfl, rfl, rfl, rfl⟩

/-- Witness for C8: removing an unknown name from `exRepoWt` twice is a
no-op; removing the known name prunes only the record. -/
theorem c8_remove_worktree_spec_witness :
    lookupA exRepoWt.worktrees ("nope".data) = none ∧
    remove_worktree exRepoWt ("nope".data) = .ok exRepoWt ∧
    lookupA exRepoWt.worktrees ("feature_JIRA-1".data) = some ("p".data) ∧
    remove_worktree exRepoWt ("feature_JIRA-1".data) =
      .ok { exRepoWt with worktrees := eraseA exRepoWt.worktrees ("feature_JIRA-1".data) } :=
  ⟨by decide,
    ((c8_remove_worktree_spec exRepoWt ("nope".data) ("p".data)).1 (by decide)).1,
    by decide,
    (c8_remove_worktree_spec exRepoWt ("feature_JIRA-1".data) ("p".data)).2.1 (by decide)⟩

/-- C9: after a successful fetch, `fetch_and_fast_forward` is a silent
no-op on a detached HEAD or when the HEAD branch has no configured
upstream; with an upstream it is a no-op when up to date, advances the
branch reference and force-checks-out the working tree when fast-forward
eligible, and leaves the whole repository state untouched when histories
have diverged; a failed fetch propagates an error. -/
theorem c9_fetch_and_fast_forward_frame (st : GitRepo) (remoteName : List Char)
    (analysis : MergeAnalysis) (b u : List Char) (tip oid : Nat)
    (hr : remoteName ∈ st.remotes) :
    (∀ e, fetch_and_fast_forward st remoteName (.error e) analysis =
        .error GitError.fetchFailed)
    ∧ (st.headBranch = none →
        fetch_and_fast_forward st remoteName (.ok ()) analysis = .ok st)
    ∧ (st.headBranch = some b → lookupA st.branches b = some tip →
        lookupA st.branchUpstreams b = none →
        fetch_and_fast_forward st remoteName (.ok ()) analysis = .ok st)
    ∧ (st.headBranch = some b → lookupA st.branches b = some tip →
        lookupA st.branchUpstreams b = some u → lookupA st.refTargets u = some oid →
        analysis.isUpToDate = true →
        fetch_and_fast_forward st remoteName (.ok ()) analysis = .ok st)
    ∧ (st.headBranch = some b → lookupA st.branches b = some tip →
        lookupA st.branchUpstreams b = some u → lookupA st.refTargets u = some oid →
        analysis.isUpToDate = false → analysis.isFastForward = true →
        fetch_and_fast_forward st remoteName (.ok ()) analysis =
          .ok { st with branches := insertA st.branches b oid,
                        workdirAt := some oid })
    ∧ (st.headBranch = some b → lookupA st.branches b = some tip →
        lookupA st.branchUpstreams b = some u → lookupA st.refTargets u = some oid →
        analysis.isUpToDate = false → analysis.isFastForward = false →
        fetch_and_fast_forward st remoteName (.ok ()) analysis = .ok st) := by
  refine ⟨?_, ?_, ?_, ?_, ?_, ?_⟩
  · intro e
    unfold fetch_and_fast_forward
    rw [if_pos hr]
  · intro h
    unfold fetch_and_fast_forward
    rw [if_pos hr, h]
  · intro h1 h2 h3
    unfold fetch_and_fast_forward
    rw [if_pos hr]
    simp [h1, h2, h3]
  · intro h1 h2 h3 h4 h5
    unfold fetch_and_fast_forward
    rw [if_pos hr]
    simp [h1, h2, h3, h4, h5]
  · intro h1 h2 h3 h4 h5 h6
    unfold fetch_and_fast_forward
    rw [if_pos hr]
    simp [h1, h2, h3, h4, h5, h6]
  · intro h1 h2 h3 h4 h5 h6
    unfold fetch_and_fast_forward
    rw [if_pos hr]
    simp [h1, h2, h3, h4, h5, h6]

/-- Witness for C9: a detached HEAD is a silent no-op, and a repository
one commit behind its upstream fast-forwards branch and working tree to
commit 2. -/
theorem c9_fetch_and_fast_forward_frame_witness :
    fetch_and_fast_forward exRepoDetached ("origin".data) (.ok ())
      { isUpToDate := false, isFastForward := true } = .ok exRepoDetached ∧
    fetch_and_fast_forward exRepoFF ("origin".data) (.ok ())
        { isUpToDate := false, isFastForward := true } =
      .ok { exRepoFF with
              branches := insertA exRepoFF.branches ("main".data) 2,
              workdirAt := some 2 } :=
  ⟨(c9_fetch_and_fast_forward_frame exRepoDetached ("origin".data)
      { isUpToDate := false, isFastForward := true } ("main".data) ("origin/main".data)
      1 2 (by decide)).2.1 rfl,
   (c9_fetch_and_fast_forward_frame exRepoFF ("origin".data)
      { isUpToDate := false, isFastForward := true } ("main".data) ("origin/main".data)
      1 2 (by decide)).2.2.2.2.1 rfl (by decide) (by decide) (by decide) rfl rfl⟩

/-- C10: in the remove command, a failure of the cleanliness check itself
does not block removal — the operation warns and proceeds to delete the
worktree directory; only a successful check reporting uncommitted changes
aborts, with the dirty-working-tree error; a successful clean check
proceeds. -/
theorem c10_remove_clean_check_failure_proceeds (e : String) :
    remove_run true (.error e) = .ok true
    ∧ remove_run true (.ok false) = .error RemoveError.dirtyWorkingTree
    ∧ remove_run true (.ok true) = .ok true
    ∧ remove_clean_gate (.error e) = .ok () := by
  exact ⟨rfl, rfl, rfl, rfl⟩

end Tix
